import Mathlib

/-!
# Verification of the squeezetgz ordering engine

Shallow embedding of `internal/squeezetgz/squeezetgz.go`: the entry model,
the window-heuristic orderer (`optimizeWindow`), the brute-force orderer
(`optimizeBruteForce`), serialization (`createTarGz`) and the integrity
validator (`validateChecksums`), together with theorems settling the
specification's claims about them.

Byte strings are modelled as `List Nat`.  The gzip compressor
(`compressBytes`, a fixed deterministic "scoring oracle" per the spec) is a
parameter `compress : Bytes → Bytes` of every definition that calls it.
`float64` ratios are modelled as exact rationals (`ℚ`), with `WithTop ℚ`
where Go's `math.MaxFloat64` sentinel / division by zero (`+Inf`) matters.
The only nondeterminism in the engine — the order in which the parallel
scoring goroutines of `findBestNextFile` deliver results on the channel —
is modelled as an explicit `arrival : List Nat` parameter (the sequence of
candidate indices in channel-delivery order).
-/

/-- Byte strings. -/
abbrev Bytes := List Nat

/-- `tar.TypeReg` is the byte `'0'`. -/
def typeReg : Nat := 48

/-- The `TarFile` struct: one archive entry plus derived data
(`Checksum`/`HeaderHash` are the SHA-256 fingerprints computed at load by
`extractTarGz`; `headerBytes` is the serialized header block produced by
`headerToBytes`; `FirstWindow`/`LastWindow` are filled in by
`OptimizeTarGz` before ordering). -/
structure TarFile where
  typeflag : Nat
  headerBytes : Bytes
  content : Bytes
  checksum : Bytes
  headerHash : Bytes
  firstWindow : Bytes
  lastWindow : Bytes
deriving DecidableEq, Repr, Inhabited

/-- `file.Header.Typeflag == tar.TypeReg`. -/
def isReg (f : TarFile) : Bool := f.typeflag == typeReg

/-- The gzip history window, 32 KiB (`squeezetgz.go:61`). -/
def windowSize : Nat := 32 * 1024

/-- `windowSize / 2` (`squeezetgz.go:62`). -/
def halfWindowSize : Nat := windowSize / 2

/-- Window preparation, `OptimizeTarGz` lines 65–76: for regular files the
first/last `hw` bytes of the content (the whole content when it is at most
`hw` long); other entries are left untouched. -/
def prepareWindows (hw : Nat) (f : TarFile) : TarFile :=
  if isReg f then
    if f.content.length ≤ hw then
      { f with firstWindow := f.content, lastWindow := f.content }
    else
      { f with firstWindow := f.content.take hw,
               lastWindow := f.content.drop (f.content.length - hw) }
  else f

/-- The whole-content compression ratio
`float64(len(compressed)) / float64(len(file.Content))` used by
`findBestStartFile`. -/
def contentRatio (compress : Bytes → Bytes) (f : TarFile) : ℚ :=
  ((compress f.content).length : ℚ) / (f.content.length : ℚ)

/-- The loop of `findBestStartFile` (lines 271–289): scan the files with a
running `(bestIdx, worstRatio)` pair, skipping files whose content is
shorter than the full window and updating on a strictly larger ratio. -/
def startScan (compress : Bytes → Bytes) (hw : Nat) :
    List TarFile → Nat → Nat × ℚ → Nat × ℚ
  | [], _, best => best
  | f :: fs, i, best =>
    if f.content.length < hw * 2 then startScan compress hw fs (i + 1) best
    else if best.2 < contentRatio compress f then
      startScan compress hw fs (i + 1) (i, contentRatio compress f)
    else startScan compress hw fs (i + 1) best

/-- `findBestStartFile(files, halfWindowSize)`: index of the file with the
worst (largest) whole-content compression ratio, starting from
`bestIdx = 0`, `worstRatio = 0.0`. -/
def findBestStartFile (compress : Bytes → Bytes) (files : List TarFile) (hw : Nat) : Nat :=
  (startScan compress hw files 0 (0, 0)).1

/-- The per-candidate score of `findBestNextFile` (lines 326–340): the
ratio of the compressed size of
`lastFile.LastWindow ++ headerBytes(candidate) ++ candidate.FirstWindow`
to that combined length.  An empty combined buffer gives `+Inf` in Go
(division by zero), modelled as `⊤`. -/
def jointRatio (compress : Bytes → Bytes) (lastFile cand : TarFile) : WithTop ℚ :=
  let combined := lastFile.lastWindow ++ cand.headerBytes ++ cand.firstWindow
  if combined.length = 0 then ⊤
  else ((((compress combined).length : ℚ) / (combined.length : ℚ) : ℚ) : WithTop ℚ)

/-- The reduction loop over the results channel (lines 354–364): keep the
first strictly smaller ratio, starting from `(0, math.MaxFloat64)`. -/
def channelFold : List (Nat × WithTop ℚ) → Nat × WithTop ℚ → Nat × WithTop ℚ
  | [], best => best
  | r :: rs, best => channelFold rs (if r.2 < best.2 then r else best)

/-- `findBestNextFile(lastFile, candidates, halfWindowSize)`: each
goroutine `i` sends `(i, jointRatio)`; `arrival` is the channel-delivery
order of the candidate indices.  Indices not naming a candidate send
nothing.  An empty candidate set, or an empty results channel, yields
index 0 (the Go fallbacks at lines 307–309 and 367–369). -/
def findBestNextFile (compress : Bytes → Bytes) (lastFile : TarFile)
    (candidates : List TarFile) (arrival : List Nat) : Nat :=
  if candidates.isEmpty then 0
  else
    let results := arrival.filterMap fun i =>
      (candidates.get? i).map fun c => (i, jointRatio compress lastFile c)
    (channelFold results (0, ⊤)).1

/-- `channelFold` returns either its initial accumulator or one of the
channel results. -/
theorem channelFold_eq_or_mem (rs : List (Nat × WithTop ℚ)) (best : Nat × WithTop ℚ) :
    channelFold rs best = best ∨ channelFold rs best ∈ rs := by
  induction rs generalizing best with
  | nil => exact Or.inl rfl
  | cons r rs ih =>
    rcases ih (if r.2 < best.2 then r else best) with h | h
    · rw [channelFold, h]
      split
      · exact Or.inr (List.mem_cons_self _ _)
      · exact Or.inl rfl
    · exact Or.inr (List.mem_cons_of_mem _ h)

/-- If every channel result's index is below `n`, the fold starting at
`(0, MaxFloat64)` yields an index below `n`. -/
theorem channelFold_fst_lt {n : Nat} (X : List (Nat × WithTop ℚ)) (hn : 0 < n)
    (hX : ∀ r ∈ X, r.1 < n) : (channelFold X (0, ⊤)).1 < n := by
  rcases channelFold_eq_or_mem X (0, ⊤) with heq | hmem
  · rw [heq]; exact hn
  · exact hX _ hmem

/-- Every result index sent on the channel names a real candidate, so the
selected index is in bounds whenever the candidate set is non-empty. -/
theorem findBestNextFile_lt (compress : Bytes → Bytes) (lastFile : TarFile)
    (candidates : List TarFile) (arrival : List Nat) (h : candidates ≠ []) :
    findBestNextFile compress lastFile candidates arrival < candidates.length := by
  have hpos : 0 < candidates.length := List.length_pos.mpr h
  rw [findBestNextFile, if_neg (by simpa [List.isEmpty_iff] using h)]
  refine channelFold_fst_lt _ hpos ?_
  intro r hr
  rcases List.mem_filterMap.mp hr with ⟨i, _, hi⟩
  rcases Option.map_eq_some'.mp hi with ⟨c, hget, hpair⟩
  have hlt : i < candidates.length := (List.get?_eq_some.mp hget).1
  rw [← hpair]
  exact hlt

/-- The chain-extension loop of `optimizeWindow` (lines 206–211): while
entries remain, pick `findBestNextFile` of the last placed entry and the
remaining set, append it and erase it from the remaining set.  `sched k`
is the channel-arrival order of the `k`-th extension step. -/
def buildChain (compress : Bytes → Bytes) (sched : Nat → List Nat) (hw : Nat)
    (step : Nat) (lastFile : TarFile) (remaining : List TarFile) : List TarFile :=
  match hrem : remaining with
  | [] => []
  | c :: cs =>
    let idx := findBestNextFile compress lastFile (c :: cs) (sched step)
    let next := (c :: cs).getD idx c
    next :: buildChain compress sched hw (step + 1) next ((c :: cs).eraseIdx idx)
termination_by remaining.length
decreasing_by
  have hlt : idx < (c :: cs).length :=
    findBestNextFile_lt compress lastFile (c :: cs) (sched step) (by simp)
  simp only [hrem, List.length_eraseIdx, if_pos hlt]
  simp only [List.length_cons]
  omega

/-- `optimizeWindow(files, halfWindowSize)` (lines 190–214): empty input
passes through; otherwise start from `findBestStartFile` and extend the
chain with `buildChain`. -/
def optimizeWindow (compress : Bytes → Bytes) (sched : Nat → List Nat)
    (files : List TarFile) (hw : Nat) : List TarFile :=
  match files with
  | [] => []
  | c :: cs =>
    let bestStartIdx := findBestStartFile compress (c :: cs) hw
    let first := (c :: cs).getD bestStartIdx c
    first :: buildChain compress sched hw 0 first ((c :: cs).eraseIdx bestStartIdx)

/-- The element swap `files[index], files[i] = files[i], files[index]`
(lines 256/262); a no-op when either index is out of bounds (never the
case in the source's calls). -/
def listSwap {α : Type} (l : List α) (i j : Nat) : List α :=
  match l.get? i, l.get? j with
  | some a, some b => (l.set i b).set j a
  | _, _ => l

/-- Tar content padding to a 512-byte block boundary. -/
def pad512 (bs : Bytes) : Bytes := bs ++ List.replicate ((512 - bs.length % 512) % 512) 0

/-- The serialized archive written by `createTarGz` (lines 402–417): each
entry's 512-byte header block followed by its padded content, closed by
the tar end-of-archive trailer of two zero blocks. -/
def serializeTar (files : List TarFile) : Bytes :=
  (files.map fun f => f.headerBytes ++ pad512 f.content).flatten ++ List.replicate 1024 0

/-- `createTarGz(files)`: the serialized archive run through the gzip
compressor at maximum compression. -/
def createTarGz (compress : Bytes → Bytes) (files : List TarFile) : Bytes :=
  compress (serializeTar files)

/-- `math.MaxInt64`, the initial `bestSize` of `optimizeBruteForce`. -/
def maxInt64 : Nat := 2 ^ 63 - 1

/-- The leaf action of `permuteAndCompress` (lines 239–252): compress the
current permutation and keep it when strictly smaller than the best so
far. -/
def permStep (compress : Bytes → Bytes) (best : List TarFile × Nat) (files : List TarFile) :
    List TarFile × Nat :=
  let size := (createTarGz compress files).length
  if size < best.2 then (files, size) else best

/-- The permutations visited by `permuteAndCompress`'s recursive swap
loop (lines 254–263), in visit order: at each `index` and for each
`i ∈ [index, len)` in increasing order, swap positions `index` and `i`
and recurse at `index + 1` (the swap-back restores the list, so the pure
rendering threads the swapped list into the recursion only).  `fuel` is
`files.length - index`. -/
def permSeq : Nat → List TarFile → Nat → List (List TarFile)
  | 0, files, _ => [files]
  | Nat.succ f, files, index =>
    (List.range' index (Nat.succ f)).flatMap fun i => permSeq f (listSwap files index i) (index + 1)

/-- `permuteAndCompress(files, index, &bestOrder, &bestSize)`: fold the
best-tracking leaf action over the permutations in visit order.  For
`index > len(files)` the Go loop body never runs and the base case is not
reached, leaving the best pair unchanged. -/
def permuteAndCompress (compress : Bytes → Bytes) (files : List TarFile) (index : Nat)
    (best : List TarFile × Nat) : List TarFile × Nat :=
  if files.length < index then best
  else (permSeq (files.length - index) files index).foldl (permStep compress) best

/-- `optimizeBruteForce(files)` (lines 217–235): empty input passes
through; more than 10 files is an error; otherwise run the permutation
search from `bestOrder = files`, `bestSize = math.MaxInt64` and return
the best order found. -/
def optimizeBruteForce (compress : Bytes → Bytes) (files : List TarFile) :
    Except String (List TarFile) :=
  if files.isEmpty then .ok files
  else if 10 < files.length then
    .error "too many files for brute force optimization (max 10)"
  else .ok (permuteAndCompress compress files 0 (files, maxInt64)).1

/-- `validateChecksums(original, reordered)` (lines 426–459): equal
lengths, and every reordered entry's digests are found among the original
digests (the Go maps keyed by checksum model as existence over the
original list) — header digest for every kind, content digest
additionally for regular files. -/
def validateChecksums (original reordered : List TarFile) : Bool :=
  if original.length ≠ reordered.length then false
  else reordered.all fun f =>
    if isReg f then
      original.any (fun g => g.checksum == f.checksum) &&
      original.any (fun g => g.headerHash == f.headerHash)
    else
      original.any (fun g => g.headerHash == f.headerHash)

/-- `OptimizationMode` (lines 18–25). -/
inductive OptimizationMode
  | windowMode
  | bruteForceMode
deriving DecidableEq, Repr

/-- `OptimizationResult` (lines 28–33); the float ratios as exact
rationals. -/
structure OptimizationResult where
  beforeSize : Nat
  afterSize : Nat
  beforeRatio : ℚ
  afterRatio : ℚ
deriving DecidableEq, Repr

/-- The observable outcome of a run of `OptimizeTarGz`: the returned
result or error, and the list of byte strings written to the output path
(`os.WriteFile` calls performed). -/
structure RunOutput where
  result : Except String OptimizationResult
  writes : List Bytes
deriving Repr

/-- Lines 78–105: split off the regular files, order them by the selected
mode, and append the special files after the ordered regular files. -/
def orderFiles (compress : Bytes → Bytes) (sched : Nat → List Nat)
    (files : List TarFile) (mode : OptimizationMode) (hw : Nat) :
    Except String (List TarFile) :=
  let regularFiles := files.filter fun f => isReg f
  let specialFiles := files.filter fun f => !(isReg f)
  match mode with
  | .bruteForceMode =>
    match optimizeBruteForce compress regularFiles with
    | .error e => .error ("failed to optimize with brute force: " ++ e)
    | .ok ordered => .ok (ordered ++ specialFiles)
  | .windowMode => .ok (optimizeWindow compress sched regularFiles hw ++ specialFiles)

/-- Lines 107–131: build the optimized archive, validate checksums of the
ordered sequence against the original set, and only on success write the
output file and return the statistics. -/
def finalizeRun (compress : Bytes → Bytes) (inputLen origUncompressed : Nat)
    (files orderedFiles : List TarFile) : RunOutput :=
  let optimizedTarGz := createTarGz compress orderedFiles
  if validateChecksums files orderedFiles then
    { result := .ok
        { beforeSize := inputLen
          afterSize := optimizedTarGz.length
          beforeRatio := (inputLen : ℚ) / (origUncompressed : ℚ)
          afterRatio := (optimizedTarGz.length : ℚ) / (origUncompressed : ℚ) }
      writes := [optimizedTarGz] }
  else
    { result := .error "checksum validation failed, file integrity compromised"
      writes := [] }

/-- `OptimizeTarGz` after the loader boundary (lines 59–131): `files` is
the entry list extracted from the input archive, `inputLen` the input's
byte length and `origUncompressed` the total uncompressed content size.
Prepare the windows, order, then validate and write. -/
def optimizeTarGz (compress : Bytes → Bytes) (sched : Nat → List Nat)
    (inputLen origUncompressed : Nat) (files : List TarFile)
    (mode : OptimizationMode) : RunOutput :=
  let prepared := files.map (prepareWindows halfWindowSize)
  match orderFiles compress sched prepared mode halfWindowSize with
  | .error e => { result := .error e, writes := [] }
  | .ok orderedFiles => finalizeRun compress inputLen origUncompressed prepared orderedFiles

/-- A list is a permutation of the element at any in-bounds index consed
onto the list with that index erased. -/
theorem perm_getD_cons_eraseIdx {α : Type} (d : α) :
    ∀ (l : List α) (i : Nat), i < l.length → l.Perm (l.getD i d :: l.eraseIdx i)
  | a :: l, 0, _ => by simp
  | a :: l, i + 1, h => by
    simp only [List.getD_cons_succ, List.eraseIdx_cons_succ]
    exact ((perm_getD_cons_eraseIdx d l i (by simpa using h)).cons a).trans
      (List.Perm.swap _ _ _)

/-- The chain built by `buildChain` is a permutation of the remaining
set. -/
theorem buildChain_perm (compress : Bytes → Bytes) (sched : Nat → List Nat) (hw : Nat) :
    ∀ (n step : Nat) (lastFile : TarFile) (remaining : List TarFile),
      remaining.length = n →
      (buildChain compress sched hw step lastFile remaining).Perm remaining := by
  intro n
  induction n with
  | zero =>
    intro step lastFile remaining hlen
    rw [List.length_eq_zero.mp hlen, buildChain]
  | succ n ih =>
    intro step lastFile remaining hlen
    match remaining with
    | c :: cs =>
      rw [buildChain]
      have hlt : findBestNextFile compress lastFile (c :: cs) (sched step) < (c :: cs).length :=
        findBestNextFile_lt compress lastFile (c :: cs) (sched step) (by simp)
      have herase : ((c :: cs).eraseIdx
          (findBestNextFile compress lastFile (c :: cs) (sched step))).length = n := by
        rw [List.length_eraseIdx, if_pos hlt]
        omega
      exact (List.Perm.cons _ (ih _ _ _ herase)).trans
        (perm_getD_cons_eraseIdx c (c :: cs) _ hlt).symm

/-- The `startScan` loop leaves the initial index, or points at a scanned
element whose content ratio it records; the recorded ratio never
decreases and dominates the ratio of every scanned file at least a full
window long. -/
theorem startScan_spec (compress : Bytes → Bytes) (hw : Nat) :
    ∀ (fs : List TarFile) (i : Nat) (best : Nat × ℚ),
      best.2 ≤ (startScan compress hw fs i best).2 ∧
      (∀ f ∈ fs, hw * 2 ≤ f.content.length →
        contentRatio compress f ≤ (startScan compress hw fs i best).2) ∧
      (startScan compress hw fs i best = best ∨
        ∃ k, k < fs.length ∧ (startScan compress hw fs i best).1 = i + k ∧
          (startScan compress hw fs i best).2 = contentRatio compress (fs.getD k default))
  | [], i, best => by
    refine ⟨le_refl _, ?_, Or.inl rfl⟩
    intro f hf
    exact absurd hf (List.not_mem_nil f)
  | f :: fs, i, best => by
    rw [startScan]
    by_cases hskip : f.content.length < hw * 2
    · rw [if_pos hskip]
      obtain ⟨h1, h2, h3⟩ := startScan_spec compress hw fs (i + 1) best
      refine ⟨h1, ?_, ?_⟩
      · intro g hg hlen
        rcases List.mem_cons.mp hg with rfl | hg
        · omega
        · exact h2 g hg hlen
      · rcases h3 with h3 | ⟨k, hk, hfst, hsnd⟩
        · exact Or.inl h3
        · exact Or.inr ⟨k + 1, by simpa using hk, by omega, by simpa using hsnd⟩
    · rw [if_neg hskip]
      by_cases hupd : best.2 < contentRatio compress f
      · rw [if_pos hupd]
        obtain ⟨h1, h2, h3⟩ := startScan_spec compress hw fs (i + 1) (i, contentRatio compress f)
        refine ⟨le_trans (le_of_lt hupd) h1, ?_, ?_⟩
        · intro g hg hlen
          rcases List.mem_cons.mp hg with rfl | hg
          · exact h1
          · exact h2 g hg hlen
        · rcases h3 with h3 | ⟨k, hk, hfst, hsnd⟩
          · exact Or.inr ⟨0, by simp, by rw [h3]; simp, by rw [h3]; simp⟩
          · exact Or.inr ⟨k + 1, by simpa using hk, by omega, by simpa using hsnd⟩
      · rw [if_neg hupd]
        obtain ⟨h1, h2, h3⟩ := startScan_spec compress hw fs (i + 1) best
        refine ⟨h1, ?_, ?_⟩
        · intro g hg hlen
          rcases List.mem_cons.mp hg with rfl | hg
          · exact le_trans (le_of_not_lt hupd) h1
          · exact h2 g hg hlen
        · rcases h3 with h3 | ⟨k, hk, hfst, hsnd⟩
          · exact Or.inl h3
          · exact Or.inr ⟨k + 1, by simpa using hk, by omega, by simpa using hsnd⟩

/-- The index chosen by `findBestStartFile` is in bounds for a non-empty
file list. -/
theorem findBestStartFile_lt (compress : Bytes → Bytes) (files : List TarFile) (hw : Nat)
    (h : files ≠ []) : findBestStartFile compress files hw < files.length := by
  have hpos : 0 < files.length := List.length_pos.mpr h
  rcases (startScan_spec compress hw files 0 (0, 0)).2.2 with heq | ⟨k, hk, hfst, _⟩
  · rw [findBestStartFile, heq]
    exact hpos
  · rw [findBestStartFile, hfst]
    omega

/-- `optimizeWindow` returns a permutation of its input. -/
theorem optimizeWindow_perm (compress : Bytes → Bytes) (sched : Nat → List Nat)
    (files : List TarFile) (hw : Nat) :
    (optimizeWindow compress sched files hw).Perm files := by
  match files with
  | [] => rw [optimizeWindow]
  | c :: cs =>
    rw [optimizeWindow]
    have hlt : findBestStartFile compress (c :: cs) hw < (c :: cs).length :=
      findBestStartFile_lt compress (c :: cs) hw (by simp)
    have herase : ((c :: cs).eraseIdx (findBestStartFile compress (c :: cs) hw)).length =
        (c :: cs).length - 1 := by
      rw [List.length_eraseIdx, if_pos hlt]
    exact (List.Perm.cons _ (buildChain_perm compress sched hw _ 0 _ _ herase)).trans
      (perm_getD_cons_eraseIdx c (c :: cs) _ hlt).symm

/-- Setting an index to the value already there changes nothing. -/
theorem set_getD_self {α : Type} (d : α) :
    ∀ (l : List α) (i : Nat), i < l.length → l.set i (l.getD i d) = l
  | a :: l, 0, _ => rfl
  | a :: l, i + 1, h => by
    simp only [List.getD_cons_succ, List.set_cons_succ]
    rw [set_getD_self d l i (by simpa using h)]

/-- Moving the element at an in-bounds index to the front, writing `x`
into its place, permutes pushing `x` onto the front. -/
theorem set_getD_cons_perm {α : Type} (d x : α) :
    ∀ (xs : List α) (k : Nat), k < xs.length → (xs.getD k d :: xs.set k x).Perm (x :: xs)
  | y :: ys, 0, _ => List.Perm.swap x y ys
  | y :: ys, k + 1, h => by
    simp only [List.getD_cons_succ, List.set_cons_succ]
    exact ((List.Perm.swap _ _ _).trans
      ((set_getD_cons_perm d x ys k (by simpa using h)).cons y)).trans
      (List.Perm.swap _ _ _)

/-- Exchanging the values at two in-bounds positions (first below second)
is a permutation. -/
theorem set_set_swap_perm {α : Type} (d : α) :
    ∀ (l : List α) (i j : Nat), i < j → j < l.length →
      (((l.set i (l.getD j d)).set j (l.getD i d))).Perm l
  | x :: xs, 0, j + 1, _, hj => by
    simp only [List.getD_cons_succ, List.getD_cons_zero, List.set_cons_zero,
      List.set_cons_succ]
    exact set_getD_cons_perm d x xs j (by simpa using hj)
  | x :: xs, i + 1, j + 1, hij, hj => by
    simp only [List.getD_cons_succ, List.set_cons_succ]
    exact (set_set_swap_perm d xs i j (by omega) (by simpa using hj)).cons x

/-- `listSwap` preserves the multiset of elements. -/
theorem listSwap_perm {α : Type} (l : List α) (i j : Nat) : (listSwap l i j).Perm l := by
  rw [listSwap]
  cases hi : l.get? i with
  | none => exact List.Perm.refl l
  | some a =>
    cases hj : l.get? j with
    | none => exact List.Perm.refl l
    | some b =>
      have hil : i < l.length := (List.get?_eq_some.mp hi).1
      have hjl : j < l.length := (List.get?_eq_some.mp hj).1
      have hgi : ∀ d : α, l.getD i d = a := fun d => by
        rw [List.getD_eq_getElem?_getD, ← List.get?_eq_getElem?, hi]; rfl
      have hgj : ∀ d : α, l.getD j d = b := fun d => by
        rw [List.getD_eq_getElem?_getD, ← List.get?_eq_getElem?, hj]; rfl
      show ((l.set i b).set j a).Perm l
      rcases Nat.lt_trichotomy i j with hlt | heq | hgt
      · have key := set_set_swap_perm a l i j hlt hjl
        rwa [hgj a, hgi a] at key
      · subst heq
        have hab : a = b := by rw [hi] at hj; exact Option.some.inj hj
        subst hab
        rw [List.set_set]
        have key := set_getD_self a l i hil
        rw [hgi a] at key
        rw [key]
      · have key := set_set_swap_perm b l j i hgt hil
        rw [hgi b, hgj b] at key
        rw [List.set_comm b a l (by omega)]
        exact key

/-- `listSwap` preserves length. -/
theorem listSwap_length {α : Type} (l : List α) (i j : Nat) :
    (listSwap l i j).length = l.length :=
  (listSwap_perm l i j).length_eq

/-- Taking strictly below a written index ignores the write. -/
theorem take_set_of_le {α : Type} (l : List α) (n m : Nat) (a : α) (h : m ≤ n) :
    (l.set n a).take m = l.take m := by
  rw [List.set_take, List.set_eq_of_length_le]
  rw [List.length_take]
  omega

/-- With both indices in bounds, `listSwap` is the double `set`. -/
theorem listSwap_eq_of_lt {α : Type} (d : α) (l : List α) (i j : Nat)
    (hi : i < l.length) (hj : j < l.length) :
    listSwap l i j = (l.set i (l.getD j d)).set j (l.getD i d) := by
  have hgi : l.get? i = some (l.getD i d) := by
    rw [List.get?_eq_get hi]
    rw [List.getD_eq_getElem?_getD, List.getElem?_eq_getElem hi]
    rfl
  have hgj : l.get? j = some (l.getD j d) := by
    rw [List.get?_eq_get hj]
    rw [List.getD_eq_getElem?_getD, List.getElem?_eq_getElem hj]
    rfl
  rw [listSwap]
  rw [hgi, hgj]

/-- Swapping an index with itself changes nothing. -/
theorem listSwap_self {α : Type} (l : List α) (i : Nat) : listSwap l i i = l := by
  by_cases hi : i < l.length
  · rw [listSwap_eq_of_lt (l.get ⟨i, hi⟩) l i i hi hi, List.set_set,
      set_getD_self _ l i hi]
  · rw [listSwap]
    have h : l.get? i = none := List.get?_eq_none.mpr (by omega)
    rw [h]

/-- The prefix below the first swapped index is untouched. -/
theorem listSwap_take {α : Type} (l : List α) (i j : Nat) (hij : i ≤ j)
    (hi : i < l.length) (hj : j < l.length) :
    (listSwap l i j).take i = l.take i := by
  rw [listSwap_eq_of_lt (l.get ⟨i, hi⟩) l i j hi hj,
    take_set_of_le _ j i _ hij, take_set_of_le _ i i _ (le_refl i)]

/-- After the swap, position `i` holds the element that was at `j`. -/
theorem listSwap_getD_fst {α : Type} (d : α) (l : List α) (i j : Nat) (hij : i ≤ j)
    (hi : i < l.length) (hj : j < l.length) :
    (listSwap l i j).getD i d = l.getD j d := by
  rcases Nat.eq_or_lt_of_le hij with rfl | hlt
  · rw [listSwap_self]
  · rw [listSwap_eq_of_lt d l i j hi hj]
    rw [List.getD_eq_getElem?_getD, List.getElem?_set_ne (by omega),
      List.getElem?_eq_getElem (by rw [List.length_set]; exact hi), List.getElem_set_self]
    rfl

/-- Every list the swap enumeration visits is a permutation of the
input. -/
theorem permSeq_perm :
    ∀ (fuel : Nat) (files : List TarFile) (index : Nat) (p : List TarFile),
      p ∈ permSeq fuel files index → p.Perm files
  | 0, files, index, p, hp => by
    simp only [permSeq, List.mem_singleton] at hp
    rw [hp]
  | Nat.succ f, files, index, p, hp => by
    simp only [permSeq, List.mem_flatMap] at hp
    obtain ⟨i, _, hpi⟩ := hp
    exact (permSeq_perm f _ (index + 1) p hpi).trans (listSwap_perm files index i)

/-- The swap enumeration is never empty. -/
theorem permSeq_exists (fuel : Nat) : ∀ (files : List TarFile) (index : Nat),
    ∃ p, p ∈ permSeq fuel files index := by
  induction fuel with
  | zero => exact fun files index => ⟨files, by simp [permSeq]⟩
  | succ f ih =>
    intro files index
    obtain ⟨p, hp⟩ := ih (listSwap files index index) (index + 1)
    refine ⟨p, ?_⟩
    simp only [permSeq, List.mem_flatMap]
    exact ⟨index, by simp [List.mem_range'_1], hp⟩

/-- Completeness of the swap enumeration: every list that agrees with the
input ahead of `index` and permutes its tail from `index` on is
visited. -/
theorem permSeq_complete :
    ∀ (fuel : Nat) (files : List TarFile) (index : Nat) (p : List TarFile),
      fuel + index = files.length →
      p.length = files.length →
      p.take index = files.take index →
      (p.drop index).Perm (files.drop index) →
      p ∈ permSeq fuel files index
  | 0, files, index, p, hfuel, hplen, htake, _ => by
    have hp : p = files := by
      have h1 : p.take index = p := by
        rw [(by omega : index = p.length), List.take_length]
      have h2 : files.take index = files := by
        rw [(by omega : index = files.length), List.take_length]
      rw [← h1, htake, h2]
    simp [permSeq, hp]
  | Nat.succ f, files, index, p, hfuel, hplen, htake, hdrop => by
    have hip : index < p.length := by omega
    have hif : index < files.length := by omega
    have hpd : p.drop index = p.get ⟨index, hip⟩ :: p.drop (index + 1) := by
      rw [List.get_eq_getElem]
      exact List.drop_eq_getElem_cons hip
    have hmem : p.get ⟨index, hip⟩ ∈ files.drop index := by
      rw [← hdrop.mem_iff, hpd]
      exact List.mem_cons_self _ _
    obtain ⟨k, hk, hak⟩ := List.mem_iff_getElem.mp hmem
    have hkd : k < files.length - index := by
      simpa using hk
    have haj : files.get ⟨index + k, by omega⟩ = p.get ⟨index, hip⟩ := by
      rw [List.get_eq_getElem, List.get_eq_getElem, ← List.getElem_drop files]
      exact hak
    have hjlt : index + k < files.length := by omega
    have hjswap : (listSwap files index (index + k)).length = files.length :=
      listSwap_length files index (index + k)
    have hswget : (listSwap files index (index + k)).getD index (p.get ⟨index, hip⟩) =
        files.getD (index + k) (p.get ⟨index, hip⟩) :=
      listSwap_getD_fst _ files index (index + k) (by omega) hif hjlt
    have hgdj : files.getD (index + k) (p.get ⟨index, hip⟩) = p.get ⟨index, hip⟩ := by
      rw [List.getD_eq_getElem?_getD, List.getElem?_eq_getElem hjlt]
      rw [← haj, List.get_eq_getElem]
      rfl
    have hswtake : (listSwap files index (index + k)).take index = files.take index :=
      listSwap_take files index (index + k) (by omega) hif hjlt
    have hdropperm : ((listSwap files index (index + k)).drop index).Perm (files.drop index) := by
    -- equal prefixes let the overall permutation cancel to the suffixes
      have hsplit : ((listSwap files index (index + k)).take index ++
          (listSwap files index (index + k)).drop index).Perm
          (files.take index ++ files.drop index) := by
        rw [List.take_append_drop, List.take_append_drop]
        exact listSwap_perm files index (index + k)
      rw [hswtake] at hsplit
      exact (List.perm_append_left_iff _).mp hsplit
    have hswd : (listSwap files index (index + k)).drop index =
        p.get ⟨index, hip⟩ :: (listSwap files index (index + k)).drop (index + 1) := by
      have hib : index < (listSwap files index (index + k)).length := by omega
      have := List.drop_eq_getElem_cons hib
      rw [this]
      congr 1
      have : (listSwap files index (index + k)).getD index (p.get ⟨index, hip⟩) =
          (listSwap files index (index + k))[index] := by
        rw [List.getD_eq_getElem?_getD, List.getElem?_eq_getElem hib]
        rfl
      rw [← this, hswget, hgdj]
    refine List.mem_flatMap.mpr ⟨index + k, ?_, ?_⟩
    · rw [List.mem_range'_1]
      omega
    · refine permSeq_complete f (listSwap files index (index + k)) (index + 1) p
        (by omega) (by omega) ?_ ?_
      · rw [List.take_succ, List.take_succ, htake, hswtake]
        congr 1
        rw [List.getElem?_eq_getElem hip,
          List.getElem?_eq_getElem (by omega : index < (listSwap files index (index + k)).length)]
        have h1 : (listSwap files index (index + k))[index] =
            (listSwap files index (index + k)).getD index (p.get ⟨index, hip⟩) := by
          rw [List.getD_eq_getElem?_getD,
            List.getElem?_eq_getElem (by omega : index < (listSwap files index (index + k)).length)]
          rfl
        rw [h1, hswget, hgdj, List.get_eq_getElem]
      · have hchain : (p.drop index).Perm ((listSwap files index (index + k)).drop index) :=
          hdrop.trans hdropperm.symm
        rw [hpd, hswd] at hchain
        exact hchain.cons_inv

/-- The recorded best size never rises and ends at most every visited
permutation's compressed size. -/
theorem foldl_permStep_snd (compress : Bytes → Bytes) :
    ∀ (L : List (List TarFile)) (b : List TarFile × Nat),
      (L.foldl (permStep compress) b).2 ≤ b.2 ∧
      ∀ l ∈ L, (L.foldl (permStep compress) b).2 ≤ (createTarGz compress l).length
  | [], b => ⟨le_refl _, fun l hl => absurd hl (List.not_mem_nil l)⟩
  | l₀ :: L, b => by
    obtain ⟨h1, h2⟩ := foldl_permStep_snd compress L (permStep compress b l₀)
    rw [List.foldl_cons]
    constructor
    · refine le_trans h1 ?_
      rw [permStep]
      split
      · omega
      · exact le_refl _
    · intro l hl
      rcases List.mem_cons.mp hl with rfl | hl
      · refine le_trans h1 ?_
        rw [permStep]
        split
        · exact le_refl _
        · omega
      · exact h2 l hl

/-- The fold keeps the initial pair or lands on a visited permutation
with its own compressed size recorded. -/
theorem foldl_permStep_eq_or_mem (compress : Bytes → Bytes) :
    ∀ (L : List (List TarFile)) (b : List TarFile × Nat),
      L.foldl (permStep compress) b = b ∨
      ((L.foldl (permStep compress) b).1 ∈ L ∧
        (L.foldl (permStep compress) b).2 =
          (createTarGz compress (L.foldl (permStep compress) b).1).length)
  | [], b => Or.inl rfl
  | l₀ :: L, b => by
    rw [List.foldl_cons]
    rcases foldl_permStep_eq_or_mem compress L (permStep compress b l₀) with heq | ⟨hm, hs⟩
    · rw [heq, permStep]
      split
      · exact Or.inr ⟨List.mem_cons_self _ _, rfl⟩
      · exact Or.inl rfl
    · exact Or.inr ⟨List.mem_cons_of_mem _ hm, hs⟩

/-- Either nothing beats the initial size and the fold returns it
unchanged, or the recorded size strictly improves. -/
theorem foldl_permStep_lt_or_eq (compress : Bytes → Bytes) :
    ∀ (L : List (List TarFile)) (b : List TarFile × Nat),
      L.foldl (permStep compress) b = b ∨ (L.foldl (permStep compress) b).2 < b.2
  | [], b => Or.inl rfl
  | l₀ :: L, b => by
    rw [List.foldl_cons, permStep]
    split
    next h =>
      rcases foldl_permStep_lt_or_eq compress L _ with heq | hlt
      · rw [heq]
        exact Or.inr h
      · exact Or.inr (lt_trans hlt h)
    next _ => exact foldl_permStep_lt_or_eq compress L b

/-- The recorded size of the best-tracking fold is the running minimum of
the visited compressed sizes. -/
theorem foldl_permStep_snd_eq (compress : Bytes → Bytes) :
    ∀ (L : List (List TarFile)) (b : List TarFile × Nat),
      (L.foldl (permStep compress) b).2 =
        L.foldl (fun acc l => min acc (createTarGz compress l).length) b.2
  | [], _ => rfl
  | l₀ :: L, b => by
    rw [List.foldl_cons, List.foldl_cons, foldl_permStep_snd_eq compress L]
    congr 1
    rw [permStep]
    split
    next h =>
      show (createTarGz compress l₀).length = min b.2 (createTarGz compress l₀).length
      omega
    next h =>
      show b.2 = min b.2 (createTarGz compress l₀).length
      omega

/-- A running minimum never exceeds its seed. -/
theorem foldl_min_le_init (compress : Bytes → Bytes) :
    ∀ (L : List (List TarFile)) (v : Nat),
      L.foldl (fun acc l => min acc (createTarGz compress l).length) v ≤ v
  | [], v => le_refl v
  | l₀ :: L, v => by
    rw [List.foldl_cons]
    exact le_trans (foldl_min_le_init compress L _) (by omega)

/-- When some visited permutation beats the seed, the fold's winner is
the first visited permutation achieving the final (minimal) recorded
size. -/
theorem foldl_permStep_find (compress : Bytes → Bytes) :
    ∀ (L : List (List TarFile)) (b : List TarFile × Nat),
      L.foldl (fun acc l => min acc (createTarGz compress l).length) b.2 < b.2 →
      L.find? (fun l => (createTarGz compress l).length ==
          (L.foldl (permStep compress) b).2) = some (L.foldl (permStep compress) b).1
  | [], b, hlt => by
    rw [List.foldl_nil] at hlt
    omega
  | l₀ :: L, b, hlt => by
    rw [List.foldl_cons] at hlt
    by_cases hupd : (createTarGz compress l₀).length < b.2
    · have hmin : min b.2 (createTarGz compress l₀).length = (createTarGz compress l₀).length := by
        omega
      rw [hmin] at hlt
      have hb' : permStep compress b l₀ = (l₀, (createTarGz compress l₀).length) := by
        rw [permStep, if_pos hupd]
      by_cases hrec : L.foldl (fun acc l => min acc (createTarGz compress l).length)
          (createTarGz compress l₀).length < (createTarGz compress l₀).length
      · have ih := foldl_permStep_find compress L (permStep compress b l₀) (by rw [hb']; exact hrec)
        rw [List.foldl_cons, List.find?_cons]
        have hRsnd : ((L.foldl (permStep compress) (permStep compress b l₀)).2) =
            L.foldl (fun acc l => min acc (createTarGz compress l).length)
              (createTarGz compress l₀).length := by
          rw [foldl_permStep_snd_eq, hb']
        have hne : ((createTarGz compress l₀).length ==
            (L.foldl (permStep compress) (permStep compress b l₀)).2) = false := by
          rw [hRsnd]
          simp only [beq_eq_false_iff_ne, ne_eq]
          omega
        rw [hne]
        exact ih
      · have heqm : L.foldl (fun acc l => min acc (createTarGz compress l).length)
            (createTarGz compress l₀).length = (createTarGz compress l₀).length := by
          have := foldl_min_le_init compress L (createTarGz compress l₀).length
          omega
        have hRsnd : ((L.foldl (permStep compress) (permStep compress b l₀)).2) =
            (createTarGz compress l₀).length := by
          rw [foldl_permStep_snd_eq, hb', heqm]
        have hkeep : L.foldl (permStep compress) (permStep compress b l₀) =
            permStep compress b l₀ := by
          rcases foldl_permStep_lt_or_eq compress L (permStep compress b l₀) with h | h
          · exact h
          · rw [hb'] at h ⊢
            rw [hb'] at hRsnd
            omega
        rw [List.foldl_cons, List.find?_cons, hkeep, hb']
        simp
    · have hmin : min b.2 (createTarGz compress l₀).length = b.2 := by omega
      rw [hmin] at hlt
      have hb' : permStep compress b l₀ = b := by
        rw [permStep, if_neg hupd]
      have ih := foldl_permStep_find compress L b hlt
      rw [List.foldl_cons, hb']
      rw [List.find?_cons]
      have hRsnd : ((L.foldl (permStep compress) b).2) =
          L.foldl (fun acc l => min acc (createTarGz compress l).length) b.2 :=
        foldl_permStep_snd_eq compress L b
      have hne : ((createTarGz compress l₀).length ==
          (L.foldl (permStep compress) b).2) = false := by
        rw [hRsnd]
        simp only [beq_eq_false_iff_ne, ne_eq]
        omega
      rw [hne]
      exact ih

/-- The search of `permuteAndCompress` started at index 0 is the fold
over the full swap enumeration. -/
theorem permuteAndCompress_zero (compress : Bytes → Bytes) (files : List TarFile)
    (best : List TarFile × Nat) :
    permuteAndCompress compress files 0 best =
      (permSeq files.length files 0).foldl (permStep compress) best := by
  rw [permuteAndCompress, if_neg (by omega), Nat.sub_zero]

/-- A successful brute-force run returns a permutation of its input. -/
theorem optimizeBruteForce_ok_perm (compress : Bytes → Bytes) (files l : List TarFile)
    (h : optimizeBruteForce compress files = .ok l) : l.Perm files := by
  rw [optimizeBruteForce] at h
  by_cases hemp : files.isEmpty
  · rw [if_pos hemp] at h
    cases h
    exact List.Perm.refl _
  · rw [if_neg hemp] at h
    by_cases hcap : 10 < files.length
    · rw [if_pos hcap] at h
      cases h
    · rw [if_neg hcap] at h
      rw [permuteAndCompress_zero] at h
      cases h
      rcases foldl_permStep_eq_or_mem compress (permSeq files.length files 0)
          (files, maxInt64) with heq | ⟨hm, _⟩
      · rw [heq]
      · exact permSeq_perm files.length files 0 _ hm

/-- A successful `orderFiles` run returns a permutation of its input. -/
theorem orderFiles_ok_perm (compress : Bytes → Bytes) (sched : Nat → List Nat)
    (files : List TarFile) (mode : OptimizationMode) (hw : Nat) (out : List TarFile)
    (h : orderFiles compress sched files mode hw = .ok out) : out.Perm files := by
  cases mode with
  | windowMode =>
    simp only [orderFiles] at h
    cases h
    exact ((optimizeWindow_perm compress sched _ hw).append_right _).trans
      (List.filter_append_perm _ files)
  | bruteForceMode =>
    simp only [orderFiles] at h
    cases hbf : optimizeBruteForce compress (files.filter fun f => isReg f) with
    | error e => rw [hbf] at h; cases h
    | ok ordered =>
      rw [hbf] at h
      cases h
      exact ((optimizeBruteForce_ok_perm compress _ _ hbf).append_right _).trans
        (List.filter_append_perm _ files)

/-- A reordering that permutes the original set always validates: each
entry finds its own digests among the originals. -/
theorem validateChecksums_of_perm (original reordered : List TarFile)
    (h : reordered.Perm original) : validateChecksums original reordered = true := by
  rw [validateChecksums, if_neg (by simp [h.length_eq])]
  rw [List.all_eq_true]
  intro f hf
  have hmem : f ∈ original := h.mem_iff.mp hf
  have hck : original.any (fun g => g.checksum == f.checksum) = true :=
    List.any_eq_true.mpr ⟨f, hmem, by simp⟩
  have hhh : original.any (fun g => g.headerHash == f.headerHash) = true :=
    List.any_eq_true.mpr ⟨f, hmem, by simp⟩
  split
  · rw [hck, hhh]
    rfl
  · exact hhh

/-- Window preparation does not change an entry's kind. -/
theorem isReg_prepareWindows (hw : Nat) (f : TarFile) :
    isReg (prepareWindows hw f) = isReg f := by
  rw [prepareWindows]
  split
  · split <;> rfl
  · rfl

/-- Window preparation does not change an entry's digests. -/
theorem digests_prepareWindows (hw : Nat) (f : TarFile) :
    (prepareWindows hw f).checksum = f.checksum ∧
    (prepareWindows hw f).headerHash = f.headerHash := by
  rw [prepareWindows]
  split
  · split <;> exact ⟨rfl, rfl⟩
  · exact ⟨rfl, rfl⟩

/-- The `(contentDigest, headerDigest)` pair of an entry. -/
def digestPair (f : TarFile) : Bytes × Bytes := (f.checksum, f.headerHash)

/-- Following the spec's words (§4.2 step 1), for comparison with the
source's start selection: `tailRatio = score(tailWindow) /
len(tailWindow)`, a length-0 window giving ratio 0. -/
def specTailRatio (compress : Bytes → Bytes) (f : TarFile) : ℚ :=
  if f.lastWindow.length = 0 then 0
  else ((compress f.lastWindow).length : ℚ) / (f.lastWindow.length : ℚ)

/-- Following the spec's words (§4.2 step 2), for comparison with the
source's chain-extension score: `jointRatio = score(concat(tail,
candidate.headWindow)) / len(concat)`. -/
def specJointRatio (compress : Bytes → Bytes) (lastFile cand : TarFile) : ℚ :=
  ((compress (lastFile.lastWindow ++ cand.firstWindow)).length : ℚ) /
    ((lastFile.lastWindow ++ cand.firstWindow).length : ℚ)

/-- A regular one-byte entry used by concrete witnesses. -/
def wReg : TarFile :=
  { typeflag := typeReg, headerBytes := [1], content := [5], checksum := [9],
    headerHash := [7], firstWindow := [], lastWindow := [] }

/-- A symbolic-link entry (typeflag `'2'`) used by concrete witnesses. -/
def wLink : TarFile :=
  { typeflag := 50, headerBytes := [2], content := [], checksum := [8],
    headerHash := [6], firstWindow := [], lastWindow := [] }

/-- At most ten files always pass the brute-force capacity check. -/
theorem bruteForce_ok_of_card (compress : Bytes → Bytes) (files : List TarFile)
    (h : files.length ≤ 10) : ∃ l, optimizeBruteForce compress files = .ok l := by
  rw [optimizeBruteForce]
  by_cases hemp : files.isEmpty
  · rw [if_pos hemp]
    exact ⟨files, rfl⟩
  · rw [if_neg hemp, if_neg (by omega)]
    exact ⟨_, rfl⟩

/-- More than ten files always fail the brute-force capacity check, with
the capacity error message, before any permutation is tried. -/
theorem bruteForce_err_of_card (compress : Bytes → Bytes) (files : List TarFile)
    (h : 10 < files.length) :
    optimizeBruteForce compress files =
      .error "too many files for brute force optimization (max 10)" := by
  have hne : files ≠ [] := by
    intro he
    rw [he] at h
    simp at h
  rw [optimizeBruteForce, if_neg (by simpa [List.isEmpty_iff] using hne), if_pos h]

/-- The full run in brute-force mode succeeds whenever at most ten of the
archive's entries are regular files: ordering succeeds and the resulting
permutation always validates. -/
theorem optimizeTarGz_brute_ok (compress : Bytes → Bytes) (sched : Nat → List Nat)
    (inputLen origUncompressed : Nat) (files : List TarFile)
    (hreg : (files.filter fun f => isReg f).length ≤ 10) :
    ∃ r, (optimizeTarGz compress sched inputLen origUncompressed files
      .bruteForceMode).result = Except.ok r := by
  have hlen : ((files.map (prepareWindows halfWindowSize)).filter fun f => isReg f).length =
      (files.filter fun f => isReg f).length := by
    rw [List.filter_map, List.length_map]
    congr 1
    apply List.filter_congr
    intro f _
    exact isReg_prepareWindows halfWindowSize f
  obtain ⟨l, hbf⟩ := bruteForce_ok_of_card compress
    ((files.map (prepareWindows halfWindowSize)).filter fun f => isReg f) (by omega)
  have horder : orderFiles compress sched (files.map (prepareWindows halfWindowSize))
      .bruteForceMode halfWindowSize =
      .ok (l ++ (files.map (prepareWindows halfWindowSize)).filter fun f => !(isReg f)) := by
    simp only [orderFiles, hbf]
  have hperm := orderFiles_ok_perm compress sched _ .bruteForceMode halfWindowSize _ horder
  have hval := validateChecksums_of_perm _ _ hperm
  have hrun : optimizeTarGz compress sched inputLen origUncompressed files .bruteForceMode =
      finalizeRun compress inputLen origUncompressed
        (files.map (prepareWindows halfWindowSize))
        (l ++ (files.map (prepareWindows halfWindowSize)).filter fun f => !(isReg f)) := by
    rw [optimizeTarGz, horder]
  rw [hrun, finalizeRun]
  simp only [hval, if_true]
  exact ⟨_, rfl⟩

/-- C1: for every input entry set and both ordering modes, a produced
ordering — the sequence handed to the validator and writer — is a
permutation of the input: its length equals the input count and the
multiset of `(contentDigest, headerDigest)` pairs is preserved. -/
theorem claim1_ordering_permutation (compress : Bytes → Bytes) (sched : Nat → List Nat)
    (files : List TarFile) (mode : OptimizationMode) (hw : Nat) (out : List TarFile)
    (h : orderFiles compress sched files mode hw = .ok out) :
    out.length = files.length ∧
    Multiset.map digestPair (↑out : Multiset TarFile) =
      Multiset.map digestPair (↑files : Multiset TarFile) := by
  have hp := orderFiles_ok_perm compress sched files mode hw out h
  refine ⟨hp.length_eq, ?_⟩
  rw [Multiset.map_coe, Multiset.map_coe, Multiset.coe_eq_coe]
  exact hp.map digestPair

/-- Witness for C1 at a concrete one-entry archive in window mode. -/
theorem claim1_witness :
    orderFiles (fun bs => bs) (fun _ => []) [wReg] .windowMode 1 = .ok [wReg] ∧
    ([wReg] : List TarFile).length = [wReg].length ∧
    Multiset.map digestPair (↑[wReg] : Multiset TarFile) =
      Multiset.map digestPair (↑[wReg] : Multiset TarFile) :=
  ⟨by simp [orderFiles, optimizeWindow, buildChain, findBestStartFile, startScan, isReg,
      wReg, typeReg],
   (claim1_ordering_permutation (fun bs => bs) (fun _ => []) [wReg] .windowMode 1 [wReg]
      (by simp [orderFiles, optimizeWindow, buildChain, findBestStartFile, startScan, isReg,
        wReg, typeReg])).1,
   (claim1_ordering_permutation (fun bs => bs) (fun _ => []) [wReg] .windowMode 1 [wReg]
      (by simp [orderFiles, optimizeWindow, buildChain, findBestStartFile, startScan, isReg,
        wReg, typeReg])).2⟩

/-- C2: when checksum validation of the ordered entries against the
original set fails, the run returns the integrity error and writes
nothing to the output path. -/
theorem claim2_integrity_error_no_write (compress : Bytes → Bytes)
    (inputLen origUncompressed : Nat) (files orderedFiles : List TarFile)
    (h : validateChecksums files orderedFiles = false) :
    (finalizeRun compress inputLen origUncompressed files orderedFiles).result =
      .error "checksum validation failed, file integrity compromised" ∧
    (finalizeRun compress inputLen origUncompressed files orderedFiles).writes = [] := by
  rw [finalizeRun]
  simp [h]

/-- Witness for C2 at a concrete failing validation. -/
theorem claim2_witness :
    validateChecksums [wReg] [] = false ∧
    (finalizeRun (fun bs => bs) 3 7 [wReg] []).result =
      .error "checksum validation failed, file integrity compromised" ∧
    (finalizeRun (fun bs => bs) 3 7 [wReg] []).writes = [] :=
  ⟨by decide,
   (claim2_integrity_error_no_write (fun bs => bs) 3 7 [wReg] [] (by decide)).1,
   (claim2_integrity_error_no_write (fun bs => bs) 3 7 [wReg] [] (by decide)).2⟩

/-- C6: the brute-force orderer succeeds on at most ten entries and
fails with the capacity error — without running the permutation
search — on more than ten. -/
theorem claim6_capacity_boundary (compress : Bytes → Bytes) (files : List TarFile) :
    (files.length ≤ 10 → ∃ l, optimizeBruteForce compress files = .ok l) ∧
    (10 < files.length →
      optimizeBruteForce compress files =
        .error "too many files for brute force optimization (max 10)") :=
  ⟨bruteForce_ok_of_card compress files, bruteForce_err_of_card compress files⟩

/-- Witness for C6 at ten and eleven concrete entries. -/
theorem claim6_witness :
    (∃ l, optimizeBruteForce (fun bs => bs) (List.replicate 10 wReg) = .ok l) ∧
    optimizeBruteForce (fun bs => bs) (List.replicate 11 wReg) =
      .error "too many files for brute force optimization (max 10)" :=
  ⟨(claim6_capacity_boundary (fun bs => bs) (List.replicate 10 wReg)).1 (by simp),
   (claim6_capacity_boundary (fun bs => bs) (List.replicate 11 wReg)).2 (by simp)⟩

/-- C9: only regular entries are reordered — every successful ordering is
some arrangement of the regular entries followed by the non-regular
entries in their original relative order. -/
theorem claim9_specials_after_regulars (compress : Bytes → Bytes) (sched : Nat → List Nat)
    (files : List TarFile) (mode : OptimizationMode) (hw : Nat) (out : List TarFile)
    (h : orderFiles compress sched files mode hw = .ok out) :
    ∃ regOrdered,
      out = regOrdered ++ files.filter (fun f => !(isReg f)) ∧
      ∀ f ∈ regOrdered, isReg f = true := by
  cases mode with
  | windowMode =>
    simp only [orderFiles] at h
    cases h
    refine ⟨optimizeWindow compress sched (files.filter fun f => isReg f) hw, rfl, ?_⟩
    intro f hf
    have hmem := (optimizeWindow_perm compress sched
      (files.filter fun f => isReg f) hw).mem_iff.mp hf
    exact List.of_mem_filter hmem
  | bruteForceMode =>
    simp only [orderFiles] at h
    cases hbf : optimizeBruteForce compress (files.filter fun f => isReg f) with
    | error e => rw [hbf] at h; cases h
    | ok ordered =>
      rw [hbf] at h
      cases h
      refine ⟨ordered, rfl, ?_⟩
      intro f hf
      have hmem := (optimizeBruteForce_ok_perm compress _ _ hbf).mem_iff.mp hf
      exact List.of_mem_filter hmem

/-- Witness for C9 at a concrete two-entry archive (one symlink, one
regular file) in window mode. -/
theorem claim9_witness :
    orderFiles (fun bs => bs) (fun _ => []) [wLink, wReg] .windowMode 1 = .ok [wReg, wLink] ∧
    ∃ regOrdered,
      [wReg, wLink] = regOrdered ++ [wLink, wReg].filter (fun f => !(isReg f)) ∧
      ∀ f ∈ regOrdered, isReg f = true :=
  ⟨by simp [orderFiles, optimizeWindow, buildChain, findBestStartFile, startScan, isReg,
      wReg, wLink, typeReg],
   claim9_specials_after_regulars (fun bs => bs) (fun _ => []) [wLink, wReg] .windowMode 1
     [wReg, wLink]
     (by simp [orderFiles, optimizeWindow, buildChain, findBestStartFile, startScan, isReg,
       wReg, wLink, typeReg])⟩

/-- C10: the brute-force capacity limit counts only regular files — the
full run in brute-force mode succeeds on an archive of more than ten
total entries when at most ten of them are regular. -/
theorem claim10_capacity_counts_regulars (compress : Bytes → Bytes) (sched : Nat → List Nat)
    (inputLen origUncompressed : Nat) (files : List TarFile)
    (_hmany : 10 < files.length)
    (hreg : (files.filter fun f => isReg f).length ≤ 10) :
    ∃ r, (optimizeTarGz compress sched inputLen origUncompressed files
      .bruteForceMode).result = Except.ok r :=
  optimizeTarGz_brute_ok compress sched inputLen origUncompressed files hreg

/-- Witness for C10 at a concrete eleven-entry archive with one regular
file. -/
theorem claim10_witness :
    10 < (wReg :: List.replicate 10 wLink).length ∧
    ((wReg :: List.replicate 10 wLink).filter fun f => isReg f).length ≤ 10 ∧
    ∃ r, (optimizeTarGz (fun bs => bs) (fun _ => []) 3 7 (wReg :: List.replicate 10 wLink)
      .bruteForceMode).result = Except.ok r :=
  ⟨by simp, by decide,
   claim10_capacity_counts_regulars (fun bs => bs) (fun _ => []) 3 7
     (wReg :: List.replicate 10 wLink) (by simp) (by decide)⟩

/-- C3: within the capacity limit (and with every permutation's
compressed size below the `math.MaxInt64` sentinel, as always holds in
practice), the brute-force orderer returns a permutation whose
serialized-and-compressed size is minimal over all permutations of the
input, and it is the first permutation achieving that minimum in the
generation order of the recursive swap enumeration. -/
theorem claim3_bruteforce_optimal (compress : Bytes → Bytes) (files : List TarFile)
    (hcap : files.length ≤ 10)
    (hsz : ∀ p : List TarFile, p.Perm files → (createTarGz compress p).length < maxInt64) :
    ∃ best, optimizeBruteForce compress files = .ok best ∧
      best.Perm files ∧
      (∀ p : List TarFile, p.Perm files →
        (createTarGz compress best).length ≤ (createTarGz compress p).length) ∧
      (permSeq files.length files 0).find?
        (fun l => (createTarGz compress l).length == (createTarGz compress best).length) =
        some best := by
  by_cases hemp : files.isEmpty
  · have hfe : files = [] := List.isEmpty_iff.mp hemp
    subst hfe
    refine ⟨[], by rw [optimizeBruteForce]; rfl, List.Perm.refl _, ?_, by simp [permSeq]⟩
    intro p hp
    rw [List.perm_nil.mp hp]
  · have hmemfiles : files ∈ permSeq files.length files 0 :=
      permSeq_complete files.length files 0 files (by omega) rfl rfl (by simp)
    have hok : optimizeBruteForce compress files =
        .ok ((permSeq files.length files 0).foldl (permStep compress) (files, maxInt64)).1 := by
      rw [optimizeBruteForce, if_neg hemp, if_neg (by omega), permuteAndCompress_zero]
    have hsub := foldl_permStep_snd compress (permSeq files.length files 0) (files, maxInt64)
    have hRlt : ((permSeq files.length files 0).foldl (permStep compress)
        (files, maxInt64)).2 < maxInt64 :=
      lt_of_le_of_lt (hsub.2 files hmemfiles) (hsz files (List.Perm.refl _))
    have hmemR : ((permSeq files.length files 0).foldl (permStep compress)
          (files, maxInt64)).1 ∈ permSeq files.length files 0 ∧
        ((permSeq files.length files 0).foldl (permStep compress) (files, maxInt64)).2 =
          (createTarGz compress ((permSeq files.length files 0).foldl (permStep compress)
            (files, maxInt64)).1).length := by
      rcases foldl_permStep_eq_or_mem compress (permSeq files.length files 0)
          (files, maxInt64) with heq | h
      · rw [heq] at hRlt
        exact absurd hRlt (by omega)
      · exact h
    refine ⟨_, hok, permSeq_perm files.length files 0 _ hmemR.1, ?_, ?_⟩
    · intro p hp
      have hpmem : p ∈ permSeq files.length files 0 :=
        permSeq_complete files.length files 0 p (by omega) hp.length_eq rfl (by simpa using hp)
      have := hsub.2 p hpmem
      omega
    · have hminlt : (permSeq files.length files 0).foldl
          (fun acc l => min acc (createTarGz compress l).length) (files, maxInt64).2 <
            (files, maxInt64).2 := by
        have hse := foldl_permStep_snd_eq compress (permSeq files.length files 0)
          (files, maxInt64)
        show _ < maxInt64
        omega
      have hfind := foldl_permStep_find compress (permSeq files.length files 0)
        (files, maxInt64) hminlt
      rw [← hmemR.2]
      exact hfind

/-- Witness for C3 at a concrete one-entry archive. -/
theorem claim3_witness :
    ([wReg] : List TarFile).length ≤ 10 ∧
    (∀ p : List TarFile, p.Perm [wReg] →
      (createTarGz (fun bs => bs) p).length < maxInt64) ∧
    ∃ best, optimizeBruteForce (fun bs => bs) [wReg] = .ok best ∧
      best.Perm [wReg] ∧
      (∀ p : List TarFile, p.Perm [wReg] →
        (createTarGz (fun bs => bs) best).length ≤ (createTarGz (fun bs => bs) p).length) ∧
      (permSeq ([wReg] : List TarFile).length [wReg] 0).find?
        (fun l => (createTarGz (fun bs => bs) l).length ==
          (createTarGz (fun bs => bs) best).length) = some best := by
  have hsz : ∀ p : List TarFile, p.Perm [wReg] →
      (createTarGz (fun bs => bs) p).length < maxInt64 := by
    intro p hp
    rw [List.perm_singleton.mp hp]
    have hlen : (createTarGz (fun bs => bs) [wReg]).length = 1537 := by
      rw [createTarGz, serializeTar]
      simp only [List.map_cons, List.map_nil, List.flatten_cons, List.flatten_nil,
        List.length_append, List.length_replicate, pad512, wReg, List.append_nil]
      norm_num
    rw [hlen, maxInt64]
    norm_num
  exact ⟨by simp, hsz, claim3_bruteforce_optimal (fun bs => bs) [wReg] (by simp) hsz⟩

/-- Concrete compressor oracle exhibiting the start-selection
divergence: with half-window 1, the first entry's whole content
compresses badly while the second entry's tail window compresses far
worse than the first's. -/
def cx4compress : Bytes → Bytes := fun bs =>
  if bs = [0, 0] then List.replicate 9 0
  else if bs = [1, 1, 1] then List.replicate 3 0
  else if bs = [1] then List.replicate 5 0
  else bs

/-- First entry for the C4 counterexample: content `[0,0]`, windows as
prepared with half-window 1. -/
def cx4f0 : TarFile :=
  { typeflag := typeReg, headerBytes := [3], content := [0, 0], checksum := [11],
    headerHash := [12], firstWindow := [0], lastWindow := [0] }

/-- Second entry for the C4 counterexample: content `[1,1,1]`, windows
as prepared with half-window 1. -/
def cx4f1 : TarFile :=
  { typeflag := typeReg, headerBytes := [4], content := [1, 1, 1], checksum := [13],
    headerHash := [14], firstWindow := [1], lastWindow := [1] }

/-- C4 counterexample: `findBestStartFile` selects entry 0, whose tail
ratio (1) is strictly below entry 1's tail ratio (5) even though entry
1's tail window is non-empty — the code scores whole contents (skipping
entries shorter than the full window), not tail windows, so the claimed
selection rule is false. -/
theorem claim4_counterexample :
    findBestStartFile cx4compress [cx4f0, cx4f1] 1 = 0 ∧
    specTailRatio cx4compress cx4f0 < specTailRatio cx4compress cx4f1 ∧
    cx4f1.lastWindow.length ≠ 0 := by
  have hr0 : contentRatio cx4compress cx4f0 = 9 / 2 := by
    rw [contentRatio, show cx4compress cx4f0.content = List.replicate 9 0 from by decide]
    rw [List.length_replicate, show cx4f0.content.length = 2 from by decide]
    norm_num
  have hr1 : contentRatio cx4compress cx4f1 = 1 := by
    rw [contentRatio, show cx4compress cx4f1.content = List.replicate 3 0 from by decide]
    rw [List.length_replicate, show cx4f1.content.length = 3 from by decide]
    norm_num
  refine ⟨?_, ?_, by decide⟩
  · rw [findBestStartFile, startScan]
    rw [if_neg (by decide)]
    rw [if_pos (by rw [hr0]; norm_num)]
    rw [startScan]
    rw [if_neg (by decide)]
    rw [if_neg (by rw [hr0, hr1]; norm_num)]
    rw [startScan]
  · have h0 : specTailRatio cx4compress cx4f0 = 1 := by
      rw [specTailRatio, if_neg (by decide)]
      rw [show cx4compress cx4f0.lastWindow = [0] from by decide]
      rw [show cx4f0.lastWindow.length = 1 from by decide]
      norm_num
    have h1 : specTailRatio cx4compress cx4f1 = 5 := by
      rw [specTailRatio, if_neg (by decide)]
      rw [show cx4compress cx4f1.lastWindow = List.replicate 5 0 from by decide]
      rw [List.length_replicate, show cx4f1.lastWindow.length = 1 from by decide]
      norm_num
    rw [h0, h1]
    norm_num

/-- C4 (amended): for every non-empty entry set, the start selection
returns an in-bounds index and maximizes the whole-content compression
ratio `score(content) / len(content)` over the entries whose content is
at least a full window (`2 × halfWindow`) long; shorter entries are
skipped (and the first entry stands when none qualify). -/
theorem claim4_amended_start_selection (compress : Bytes → Bytes) (files : List TarFile)
    (hw : Nat) (hne : files ≠ []) :
    findBestStartFile compress files hw < files.length ∧
    ∀ f ∈ files, hw * 2 ≤ f.content.length →
      contentRatio compress f ≤
        contentRatio compress (files.getD (findBestStartFile compress files hw) default) := by
  refine ⟨findBestStartFile_lt compress files hw hne, ?_⟩
  intro f hf hlen
  obtain ⟨h1, h2, h3⟩ := startScan_spec compress hw files 0 (0, 0)
  have hratio := h2 f hf hlen
  rcases h3 with heq | ⟨k, hk, hfst, hsnd⟩
  · rw [findBestStartFile, heq]
    have hnn : 0 ≤ contentRatio compress (files.getD 0 default) := by
      rw [contentRatio]
      positivity
    rw [heq] at hratio
    exact le_trans hratio hnn
  · rw [findBestStartFile, hfst]
    rw [hsnd] at hratio
    simpa using hratio

/-- Witness for the amended C4 at a concrete one-entry set. -/
theorem claim4_witness :
    ([wReg] : List TarFile) ≠ [] ∧
    (findBestStartFile (fun bs => bs) [wReg] 1 < [wReg].length ∧
      ∀ f ∈ [wReg], 1 * 2 ≤ f.content.length →
        contentRatio (fun bs => bs) f ≤
          contentRatio (fun bs => bs)
            ([wReg].getD (findBestStartFile (fun bs => bs) [wReg] 1) default)) :=
  ⟨by decide, claim4_amended_start_selection (fun bs => bs) [wReg] 1 (by decide)⟩

/-- The recorded best ratio of the channel fold never exceeds the seed or
any delivered result's ratio. -/
theorem channelFold_le (rs : List (Nat × WithTop ℚ)) (best : Nat × WithTop ℚ) :
    (channelFold rs best).2 ≤ best.2 ∧ ∀ r ∈ rs, (channelFold rs best).2 ≤ r.2 := by
  induction rs generalizing best with
  | nil => exact ⟨le_refl _, fun r hr => absurd hr (List.not_mem_nil r)⟩
  | cons r rs ih =>
    obtain ⟨h1, h2⟩ := ih (if r.2 < best.2 then r else best)
    rw [channelFold]
    constructor
    · refine le_trans h1 ?_
      split
      next h => exact le_of_lt h
      next h => exact le_refl _
    · intro s hs
      rcases List.mem_cons.mp hs with rfl | hs
      · refine le_trans h1 ?_
        split
        next h => exact le_refl _
        next h => exact le_of_not_lt h
      · exact h2 s hs

/-- An in-bounds lookup, phrased with the default-valued accessors. -/
theorem get?_eq_some_getD {α : Type} [Inhabited α] (l : List α) (j : Nat)
    (hj : j < l.length) : l.get? j = some (l.getD j default) := by
  rw [List.get?_eq_get hj, List.getD_eq_getElem?_getD, List.getElem?_eq_getElem hj]
  rfl

/-- For every channel-arrival order that covers all candidates, the
candidate selected by `findBestNextFile` achieves the minimal
`jointRatio` over the whole candidate set. -/
theorem findBestNextFile_min (compress : Bytes → Bytes) (lastFile : TarFile)
    (candidates : List TarFile) (arrival : List Nat)
    (hne : candidates ≠ []) (harr : arrival.Perm (List.range candidates.length)) :
    ∀ j, j < candidates.length →
      jointRatio compress lastFile
        (candidates.getD (findBestNextFile compress lastFile candidates arrival) default) ≤
        jointRatio compress lastFile (candidates.getD j default) := by
  intro j hj
  have hunfold : findBestNextFile compress lastFile candidates arrival =
      (channelFold (arrival.filterMap fun i =>
        (candidates.get? i).map fun c => (i, jointRatio compress lastFile c)) (0, ⊤)).1 := by
    rw [findBestNextFile, if_neg (by simpa [List.isEmpty_iff] using hne)]
  rw [hunfold]
  have hresperm : (arrival.filterMap fun i =>
      (candidates.get? i).map fun c => (i, jointRatio compress lastFile c)).Perm
      ((List.range candidates.length).filterMap fun i =>
        (candidates.get? i).map fun c => (i, jointRatio compress lastFile c)) :=
    harr.filterMap _
  have hjmem : (j, jointRatio compress lastFile (candidates.getD j default)) ∈
      arrival.filterMap fun i =>
        (candidates.get? i).map fun c => (i, jointRatio compress lastFile c) := by
    rw [hresperm.mem_iff]
    refine List.mem_filterMap.mpr ⟨j, List.mem_range.mpr hj, ?_⟩
    rw [get?_eq_some_getD candidates j hj]
    rfl
  obtain ⟨hle_init, hle_all⟩ := channelFold_le (arrival.filterMap fun i =>
      (candidates.get? i).map fun c => (i, jointRatio compress lastFile c)) (0, ⊤)
  rcases channelFold_eq_or_mem (arrival.filterMap fun i =>
      (candidates.get? i).map fun c => (i, jointRatio compress lastFile c)) (0, ⊤) with
    heq | hmem
  · have htop := hle_all _ hjmem
    rw [heq] at htop
    have htj : jointRatio compress lastFile (candidates.getD j default) = ⊤ :=
      top_le_iff.mp htop
    rw [heq, htj]
    exact le_top
  · rcases List.mem_filterMap.mp hmem with ⟨i, _, hi⟩
    rcases Option.map_eq_some'.mp hi with ⟨c, hget, hpair⟩
    have hlt : i < candidates.length := (List.get?_eq_some.mp hget).1
    have hc : c = candidates.getD i default := by
      rw [get?_eq_some_getD candidates i hlt] at hget
      exact (Option.some.inj hget).symm
    have hsel := hle_all _ hjmem
    rw [← hpair] at hsel ⊢
    rw [hc] at hsel ⊢
    exact hsel

/-- Concrete compressor oracle for the chain-extension divergence: the
buffers the code actually scores (tail ++ header ++ head) compress in
the opposite order to the buffers the spec describes (tail ++ head). -/
def cx5compress : Bytes → Bytes := fun bs =>
  if bs = [0, 7, 1] then [0]
  else if bs = [0, 8, 2] then List.replicate 6 0
  else if bs = [0, 1] then List.replicate 4 0
  else if bs = [0, 2] then [0]
  else bs

/-- Previously placed entry for the C5 counterexample (tail window
`[0]`). -/
def cx5last : TarFile :=
  { typeflag := typeReg, headerBytes := [9], content := [0], checksum := [21],
    headerHash := [22], firstWindow := [0], lastWindow := [0] }

/-- First candidate for the C5 counterexample (header bytes `[7]`, head
window `[1]`). -/
def cx5c0 : TarFile :=
  { typeflag := typeReg, headerBytes := [7], content := [1], checksum := [23],
    headerHash := [24], firstWindow := [1], lastWindow := [1] }

/-- Second candidate for the C5 counterexample (header bytes `[8]`, head
window `[2]`). -/
def cx5c1 : TarFile :=
  { typeflag := typeReg, headerBytes := [8], content := [2], checksum := [25],
    headerHash := [26], firstWindow := [2], lastWindow := [2] }

/-- C5 counterexample: with channel delivery in index order, the code
appends candidate 0, yet candidate 1 has the strictly smaller
`score(concat(tail, headWindow)) / len(concat)` value — the code's score
includes the candidate's serialized header between the two windows, so
the claimed formula (and hence the claimed selection) is false. -/
theorem claim5_counterexample :
    findBestNextFile cx5compress cx5last [cx5c0, cx5c1] [0, 1] = 0 ∧
    specJointRatio cx5compress cx5last cx5c1 < specJointRatio cx5compress cx5last cx5c0 := by
  have hj0 : jointRatio cx5compress cx5last cx5c0 = ((1 / 3 : ℚ) : WithTop ℚ) := by
    simp only [jointRatio]
    rw [show cx5last.lastWindow ++ cx5c0.headerBytes ++ cx5c0.firstWindow = [0, 7, 1] from
      by decide]
    rw [if_neg (by decide), show cx5compress [0, 7, 1] = [0] from by decide]
    rw [show ([0] : Bytes).length = 1 from rfl, show ([0, 7, 1] : Bytes).length = 3 from rfl]
    norm_num
  have hj1 : jointRatio cx5compress cx5last cx5c1 = ((2 : ℚ) : WithTop ℚ) := by
    simp only [jointRatio]
    rw [show cx5last.lastWindow ++ cx5c1.headerBytes ++ cx5c1.firstWindow = [0, 8, 2] from
      by decide]
    rw [if_neg (by decide),
      show cx5compress [0, 8, 2] = List.replicate 6 0 from by decide]
    rw [List.length_replicate, show ([0, 8, 2] : Bytes).length = 3 from rfl]
    norm_num
  constructor
  · have hunf : findBestNextFile cx5compress cx5last [cx5c0, cx5c1] [0, 1] =
        (channelFold [(0, jointRatio cx5compress cx5last cx5c0),
          (1, jointRatio cx5compress cx5last cx5c1)] (0, ⊤)).1 := by
      rw [findBestNextFile, if_neg (by decide)]
      rfl
    rw [hunf]
    rw [channelFold, if_pos (by rw [hj0]; exact WithTop.coe_lt_top _)]
    rw [channelFold, if_neg (by rw [hj0, hj1, WithTop.coe_lt_coe]; norm_num)]
    rw [channelFold]
  · have hs1 : specJointRatio cx5compress cx5last cx5c1 = 1 / 2 := by
      rw [specJointRatio]
      rw [show cx5last.lastWindow ++ cx5c1.firstWindow = [0, 2] from by decide]
      rw [show cx5compress [0, 2] = [0] from by decide]
      rw [show ([0] : Bytes).length = 1 from rfl, show ([0, 2] : Bytes).length = 2 from rfl]
      norm_num
    have hs0 : specJointRatio cx5compress cx5last cx5c0 = 2 := by
      rw [specJointRatio]
      rw [show cx5last.lastWindow ++ cx5c0.firstWindow = [0, 1] from by decide]
      rw [show cx5compress [0, 1] = List.replicate 4 0 from by decide]
      rw [List.length_replicate, show ([0, 1] : Bytes).length = 2 from rfl]
      norm_num
    rw [hs0, hs1]
    norm_num

/-- C5 (amended): the score at each chain-extension step is the
compressed size of the previous entry's tail window, the candidate's
serialized header bytes and the candidate's head window concatenated,
divided by that combined length (`jointRatio`), and for every
channel-arrival order covering all candidates, the selected candidate
achieves the minimal such ratio over the candidate set. -/
theorem claim5_amended_joint_selection (compress : Bytes → Bytes) (lastFile : TarFile)
    (candidates : List TarFile) (arrival : List Nat) (hne : candidates ≠ [])
    (harr : arrival.Perm (List.range candidates.length)) :
    findBestNextFile compress lastFile candidates arrival < candidates.length ∧
    ∀ j, j < candidates.length →
      jointRatio compress lastFile
        (candidates.getD (findBestNextFile compress lastFile candidates arrival) default) ≤
        jointRatio compress lastFile (candidates.getD j default) :=
  ⟨findBestNextFile_lt compress lastFile candidates arrival hne,
   findBestNextFile_min compress lastFile candidates arrival hne harr⟩

/-- Witness for the amended C5 at a concrete one-candidate step. -/
theorem claim5_witness :
    ([cx5c0] : List TarFile) ≠ [] ∧
    ([0] : List Nat).Perm (List.range ([cx5c0] : List TarFile).length) ∧
    (findBestNextFile cx5compress cx5last [cx5c0] [0] < [cx5c0].length ∧
      ∀ j, j < ([cx5c0] : List TarFile).length →
        jointRatio cx5compress cx5last
          ([cx5c0].getD (findBestNextFile cx5compress cx5last [cx5c0] [0]) default) ≤
          jointRatio cx5compress cx5last ([cx5c0].getD j default)) :=
  ⟨by decide, by decide,
   claim5_amended_joint_selection cx5compress cx5last [cx5c0] [0] (by decide) (by decide)⟩

/-- Concrete compressor oracle giving two candidates exactly tied
`jointRatio` scores. -/
def cx8compress : Bytes → Bytes := fun bs =>
  if bs = [0, 7, 1] then [0]
  else if bs = [0, 8, 2] then [0]
  else bs

/-- Previously placed entry for the C8 counterexample. -/
def cx8last : TarFile :=
  { typeflag := typeReg, headerBytes := [9], content := [0], checksum := [31],
    headerHash := [32], firstWindow := [0], lastWindow := [0] }

/-- First candidate for the C8 counterexample. -/
def cx8c0 : TarFile :=
  { typeflag := typeReg, headerBytes := [7], content := [1], checksum := [33],
    headerHash := [34], firstWindow := [1], lastWindow := [1] }

/-- Second candidate for the C8 counterexample. -/
def cx8c1 : TarFile :=
  { typeflag := typeReg, headerBytes := [8], content := [2], checksum := [35],
    headerHash := [36], firstWindow := [2], lastWindow := [2] }

/-- C8 counterexample: two candidates tie on `jointRatio`, and the
selection follows the channel-delivery order — delivery `[0, 1]` keeps
candidate 0 while delivery `[1, 0]` keeps candidate 1 — so the tie-break
is by completion order, not by a stable pre-assigned key, and repeated
runs need not produce the identical ordering. -/
theorem claim8_counterexample :
    jointRatio cx8compress cx8last cx8c0 = jointRatio cx8compress cx8last cx8c1 ∧
    findBestNextFile cx8compress cx8last [cx8c0, cx8c1] [0, 1] = 0 ∧
    findBestNextFile cx8compress cx8last [cx8c0, cx8c1] [1, 0] = 1 := by
  have hj0 : jointRatio cx8compress cx8last cx8c0 = ((1 / 3 : ℚ) : WithTop ℚ) := by
    simp only [jointRatio]
    rw [show cx8last.lastWindow ++ cx8c0.headerBytes ++ cx8c0.firstWindow = [0, 7, 1] from
      by decide]
    rw [if_neg (by decide), show cx8compress [0, 7, 1] = [0] from by decide]
    rw [show ([0] : Bytes).length = 1 from rfl, show ([0, 7, 1] : Bytes).length = 3 from rfl]
    norm_num
  have hj1 : jointRatio cx8compress cx8last cx8c1 = ((1 / 3 : ℚ) : WithTop ℚ) := by
    simp only [jointRatio]
    rw [show cx8last.lastWindow ++ cx8c1.headerBytes ++ cx8c1.firstWindow = [0, 8, 2] from
      by decide]
    rw [if_neg (by decide), show cx8compress [0, 8, 2] = [0] from by decide]
    rw [show ([0] : Bytes).length = 1 from rfl, show ([0, 8, 2] : Bytes).length = 3 from rfl]
    norm_num
  refine ⟨by rw [hj0, hj1], ?_, ?_⟩
  · have hunf : findBestNextFile cx8compress cx8last [cx8c0, cx8c1] [0, 1] =
        (channelFold [(0, jointRatio cx8compress cx8last cx8c0),
          (1, jointRatio cx8compress cx8last cx8c1)] (0, ⊤)).1 := by
      rw [findBestNextFile, if_neg (by decide)]
      rfl
    rw [hunf]
    rw [channelFold, if_pos (by rw [hj0]; exact WithTop.coe_lt_top _)]
    rw [channelFold, if_neg (by rw [hj0, hj1]; exact lt_irrefl _)]
    rw [channelFold]
  · have hunf : findBestNextFile cx8compress cx8last [cx8c0, cx8c1] [1, 0] =
        (channelFold [(1, jointRatio cx8compress cx8last cx8c1),
          (0, jointRatio cx8compress cx8last cx8c0)] (0, ⊤)).1 := by
      rw [findBestNextFile, if_neg (by decide)]
      rfl
    rw [hunf]
    rw [channelFold, if_pos (by rw [hj1]; exact WithTop.coe_lt_top _)]
    rw [channelFold, if_neg (by rw [hj0, hj1]; exact lt_irrefl _)]
    rw [channelFold]

/-- C8 (amended): the per-step selection is deterministic across runs
only up to ties — whenever one candidate's `jointRatio` is strictly
below every other candidate's, the selected index is independent of the
channel-arrival order; on exact ties the arrival order decides. -/
theorem claim8_amended_unique_min_deterministic (compress : Bytes → Bytes)
    (lastFile : TarFile) (candidates : List TarFile) (i : Nat)
    (hi : i < candidates.length)
    (huniq : ∀ j, j < candidates.length → j ≠ i →
      jointRatio compress lastFile (candidates.getD i default) <
        jointRatio compress lastFile (candidates.getD j default)) :
    ∀ arr1 arr2, arr1.Perm (List.range candidates.length) →
      arr2.Perm (List.range candidates.length) →
      findBestNextFile compress lastFile candidates arr1 =
        findBestNextFile compress lastFile candidates arr2 := by
  have hne : candidates ≠ [] := by
    intro he
    rw [he] at hi
    simp at hi
  have hsel : ∀ arr, arr.Perm (List.range candidates.length) →
      findBestNextFile compress lastFile candidates arr = i := by
    intro arr harr
    by_contra hne2
    have hlt := findBestNextFile_lt compress lastFile candidates arr hne
    have hmin := findBestNextFile_min compress lastFile candidates arr hne harr i hi
    exact absurd hmin (not_le.mpr (huniq _ hlt hne2))
  intro arr1 arr2 h1 h2
  rw [hsel arr1 h1, hsel arr2 h2]

/-- Witness for the amended C8: with a strict minimizer, index-order and
reversed-order delivery select the same candidate. -/
theorem claim8_witness :
    (0 : Nat) < ([cx5c0, cx5c1] : List TarFile).length ∧
    findBestNextFile cx5compress cx5last [cx5c0, cx5c1] [0, 1] =
      findBestNextFile cx5compress cx5last [cx5c0, cx5c1] [1, 0] := by
  have hj0 : jointRatio cx5compress cx5last cx5c0 = ((1 / 3 : ℚ) : WithTop ℚ) := by
    simp only [jointRatio]
    rw [show cx5last.lastWindow ++ cx5c0.headerBytes ++ cx5c0.firstWindow = [0, 7, 1] from
      by decide]
    rw [if_neg (by decide), show cx5compress [0, 7, 1] = [0] from by decide]
    rw [show ([0] : Bytes).length = 1 from rfl, show ([0, 7, 1] : Bytes).length = 3 from rfl]
    norm_num
  have hj1 : jointRatio cx5compress cx5last cx5c1 = ((2 : ℚ) : WithTop ℚ) := by
    simp only [jointRatio]
    rw [show cx5last.lastWindow ++ cx5c1.headerBytes ++ cx5c1.firstWindow = [0, 8, 2] from
      by decide]
    rw [if_neg (by decide),
      show cx5compress [0, 8, 2] = List.replicate 6 0 from by decide]
    rw [List.length_replicate, show ([0, 8, 2] : Bytes).length = 3 from rfl]
    norm_num
  refine ⟨by decide, ?_⟩
  refine claim8_amended_unique_min_deterministic cx5compress cx5last [cx5c0, cx5c1] 0
    (by decide) ?_ [0, 1] [1, 0] (by decide) (by decide)
  intro j hj hne
  match j, hj with
  | 0, _ => exact absurd rfl hne
  | 1, _ =>
    rw [show ([cx5c0, cx5c1].getD 0 default) = cx5c0 from rfl,
      show ([cx5c0, cx5c1].getD 1 default) = cx5c1 from rfl, hj0, hj1,
      WithTop.coe_lt_coe]
    norm_num

/-- First original entry for the C7 counterexample. -/
def cx7A : TarFile :=
  { typeflag := typeReg, headerBytes := [1], content := [1], checksum := [41],
    headerHash := [42], firstWindow := [], lastWindow := [] }

/-- Second original entry for the C7 counterexample, with digests
distinct from the first's. -/
def cx7B : TarFile :=
  { typeflag := typeReg, headerBytes := [2], content := [2], checksum := [43],
    headerHash := [44], firstWindow := [], lastWindow := [] }

/-- C7 counterexample: the ordering `[A, A]` passes `validateChecksums`
against the original `[A, B]` — every entry's digests are present in the
original digest maps and the lengths agree — yet it is not a permutation
of the input: entry `A` is duplicated and entry `B` dropped.  Digest
membership plus count equality does not rule out
duplication-with-dropping. -/
theorem claim7_counterexample :
    validateChecksums [cx7A, cx7B] [cx7A, cx7A] = true ∧
    ¬ ([cx7A, cx7A] : List TarFile).Perm [cx7A, cx7B] ∧
    Multiset.map digestPair (↑([cx7A, cx7A] : List TarFile) : Multiset TarFile) ≠
      Multiset.map digestPair (↑([cx7A, cx7B] : List TarFile) : Multiset TarFile) := by
  refine ⟨by decide, by decide, ?_⟩
  rw [Multiset.map_coe, Multiset.map_coe, Ne, Multiset.coe_eq_coe]
  decide

/-- C7 (amended): a passing validation guarantees equal lengths and that
every entry of the ordering finds its header digest — and, for regular
entries, its content digest — among the original set's digests; it does
not guarantee a bijection. -/
theorem claim7_amended_membership (original reordered : List TarFile)
    (h : validateChecksums original reordered = true) :
    reordered.length = original.length ∧
    ∀ f ∈ reordered,
      (∃ g ∈ original, g.headerHash = f.headerHash) ∧
      (isReg f = true → ∃ g ∈ original, g.checksum = f.checksum) := by
  rw [validateChecksums] at h
  by_cases hlen : original.length ≠ reordered.length
  · rw [if_pos hlen] at h
    cases h
  · rw [if_neg hlen] at h
    refine ⟨by omega, ?_⟩
    intro f hf
    have hone := List.all_eq_true.mp h f hf
    by_cases hreg : isReg f
    · rw [if_pos hreg, Bool.and_eq_true] at hone
      obtain ⟨hck, hhh⟩ := hone
      obtain ⟨g1, hg1, he1⟩ := List.any_eq_true.mp hhh
      obtain ⟨g2, hg2, he2⟩ := List.any_eq_true.mp hck
      exact ⟨⟨g1, hg1, by simpa using he1⟩, fun _ => ⟨g2, hg2, by simpa using he2⟩⟩
    · rw [if_neg hreg] at hone
      obtain ⟨g1, hg1, he1⟩ := List.any_eq_true.mp hone
      refine ⟨⟨g1, hg1, by simpa using he1⟩, fun hr => absurd hr hreg⟩

/-- Witness for the amended C7 at a concrete passing validation. -/
theorem claim7_witness :
    validateChecksums [cx7A, cx7B] [cx7B, cx7A] = true ∧
    (([cx7B, cx7A] : List TarFile).length = [cx7A, cx7B].length ∧
      ∀ f ∈ ([cx7B, cx7A] : List TarFile),
        (∃ g ∈ [cx7A, cx7B], g.headerHash = f.headerHash) ∧
        (isReg f = true → ∃ g ∈ [cx7A, cx7B], g.checksum = f.checksum)) :=
  ⟨by decide, claim7_amended_membership [cx7A, cx7B] [cx7B, cx7A] (by decide)⟩
